import Mathlib

/-
  Verification development for the node-tg-cc streaming session-orchestration
  subsystem: the MessageStream push-to-pull channel, the PermissionManager
  broker, the SessionManager clear/delete paths and the TelegramBot
  inject-or-start orchestration, shallowly embedded from the TypeScript
  sources.
-/

namespace NodeTgCc

/-! ## MessageStream (src/src/claude/message-stream.ts)

The channel state carries the fields of the TypeScript class (`queue`,
`pendingResolve`, `closed`, `sessionId`).  `pendingResolve` being non-null
corresponds to a consumer blocked in the async iterator, which we track
together with the rest of the consumer coroutine as `ConsumerState`.  Two
ghost fields (`pushedLog`, `output`) record the successfully pushed items and
the items yielded to the consumer, and `errored` records that a push threw
`Cannot push to closed stream`. -/

structure SDKUserMessage where
  content : String
  session_id : String
deriving Repr, DecidableEq

/-- The consumer side of the async generator loop: `running` is the top of the
while loop, `waiting` means `pendingResolve` is installed, `resumed m` means
the promise was just resolved with `m` (the message, or `none` for the close
signal) and the consumer has not yet acted on it, `done` means the generator
returned. -/
inductive ConsumerState where
  | running
  | waiting
  | resumed (m : Option SDKUserMessage)
  | done
deriving Repr, DecidableEq

structure MessageStream where
  queue : List SDKUserMessage
  consumer : ConsumerState
  closed : Bool
  sessionId : String
  pushedLog : List SDKUserMessage
  output : List SDKUserMessage
  errored : Bool
deriving Repr, DecidableEq

def MessageStream.empty : MessageStream :=
  { queue := [], consumer := ConsumerState.running, closed := false,
    sessionId := "", pushedLog := [], output := [], errored := false }

def MessageStream.setSessionId (s : MessageStream) (sid : String) : MessageStream :=
  { s with sessionId := sid }

def MessageStream.createMessage (s : MessageStream) (text : String) : SDKUserMessage :=
  { content := text, session_id := s.sessionId }

/-- `push(message)`: throws when closed; otherwise hands the message straight
to a waiting consumer (resolving `pendingResolve`) or enqueues it. -/
def MessageStream.push (s : MessageStream) (m : SDKUserMessage) : MessageStream :=
  if s.closed then
    { s with errored := true }
  else
    match s.consumer with
    | ConsumerState.waiting =>
        { s with consumer := ConsumerState.resumed (some m),
                 pushedLog := s.pushedLog ++ [m] }
    | _ =>
        { s with queue := s.queue ++ [m], pushedLog := s.pushedLog ++ [m] }

def MessageStream.pushText (s : MessageStream) (text : String) : MessageStream :=
  s.push (s.createMessage text)

/-- `close()`: marks the stream closed and wakes a waiting consumer with the
`null` end-of-stream signal. -/
def MessageStream.close (s : MessageStream) : MessageStream :=
  match s.consumer with
  | ConsumerState.waiting =>
      { s with closed := true, consumer := ConsumerState.resumed none }
  | _ => { s with closed := true }

def MessageStream.isClosed (s : MessageStream) : Bool := s.closed

def MessageStream.hasPendingMessages (s : MessageStream) : Bool := !s.queue.isEmpty

/-- One scheduling step of the consumer coroutine (one turn of the async
generator loop, or acting on a value delivered to `pendingResolve`). -/
def consumeStep (s : MessageStream) : MessageStream :=
  match s.consumer with
  | ConsumerState.running =>
      match s.queue with
      | m :: rest => { s with queue := rest, output := s.output ++ [m] }
      | [] =>
          if s.closed then { s with consumer := ConsumerState.done }
          else { s with consumer := ConsumerState.waiting }
  | ConsumerState.resumed (some m) =>
      { s with consumer := ConsumerState.running, output := s.output ++ [m] }
  | ConsumerState.resumed none => { s with consumer := ConsumerState.done }
  | ConsumerState.waiting => s
  | ConsumerState.done => s

/-- Actions an interleaving of producer and consumer can take. -/
inductive ChanAct where
  | push (m : SDKUserMessage)
  | close
  | consume
deriving Repr, DecidableEq

def chanStep (s : MessageStream) : ChanAct → MessageStream
  | ChanAct.push m => s.push m
  | ChanAct.close => s.close
  | ChanAct.consume => consumeStep s

def chanRun (s : MessageStream) (t : List ChanAct) : MessageStream :=
  t.foldl chanStep s

def consumeN : Nat → MessageStream → MessageStream
  | 0, s => s
  | n + 1, s => consumeN n (consumeStep s)

/-- Payloads of the push actions of a trace, in order. -/
def pushesOf (t : List ChanAct) : List SDKUserMessage :=
  t.filterMap (fun a =>
    match a with
    | ChanAct.push m => some m
    | _ => none)

def inflight : ConsumerState → List SDKUserMessage
  | ConsumerState.resumed (some m) => [m]
  | _ => []

/-- Channel invariant: the pushed items are exactly the yielded items, the
item in flight to a resumed consumer, and the queue, in that order; a waiting
consumer implies empty queue and open channel; the end-of-stream states imply
empty queue and closed channel. -/
def ChanInv (s : MessageStream) : Prop :=
  s.output ++ inflight s.consumer ++ s.queue = s.pushedLog
  ∧ (s.consumer = ConsumerState.waiting → s.queue = [] ∧ s.closed = false)
  ∧ (s.consumer = ConsumerState.resumed none → s.queue = [] ∧ s.closed = true)
  ∧ (s.consumer = ConsumerState.done → s.queue = [] ∧ s.closed = true)

/-- Remaining consumer work before the generator can return, once closed. -/
def consumerMeasure (s : MessageStream) : Nat :=
  s.queue.length +
    match s.consumer with
    | ConsumerState.resumed (some _) => 2
    | ConsumerState.running => 1
    | ConsumerState.resumed none => 1
    | ConsumerState.waiting => 1
    | ConsumerState.done => 0

/-! ## PermissionManager (permission.ts, in src/unnamed/part_001)

`pendingPermissions` models the `Map<string, PendingPermission>` as an
insertion-ordered association list (a JS Map holds at most one entry per key,
so `Map.delete` is a filter on the key).  The entry field `resolve` — the
promise resolver — is modelled by the settlement log the operations return:
a pair `(id, response)` in that log is one call of that entry's `resolve`.
The field `timeoutId`, handed to `setTimeout`/`clearTimeout`, is modelled by
`activeTimers`, the set of entry ids whose timer is registered and not yet
cleared nor fired. -/

structure PermissionResponse where
  allowed : Bool
  alwaysAllow : Option Bool
  message : Option String
deriving Repr, DecidableEq

structure PendingPermission where
  id : String
  chatId : Int
  toolName : String
  toolInput : String
deriving Repr, DecidableEq

structure PermissionManager where
  pendingPermissions : List PendingPermission
  alwaysAllowedTools : List (Int × List String)
  activeTimers : List String
  timeoutSeconds : Nat
  hasCallback : Bool
deriving Repr, DecidableEq

def PermissionManager.start (timeoutSeconds : Nat) (hasCallback : Bool) :
    PermissionManager :=
  { pendingPermissions := [], alwaysAllowedTools := [], activeTimers := [],
    timeoutSeconds := timeoutSeconds, hasCallback := hasCallback }

def lookupTools : List (Int × List String) → Int → Option (List String)
  | [], _ => none
  | (c, ts) :: rest, chatId => if c = chatId then some ts else lookupTools rest chatId

/-- `isToolAlwaysAllowed`: `allowedTools?.has(toolName) ?? false`. -/
def isToolAlwaysAllowed (s : PermissionManager) (chatId : Int)
    (toolName : String) : Bool :=
  match lookupTools s.alwaysAllowedTools chatId with
  | some ts => decide (toolName ∈ ts)
  | none => false

/-- `setToolAlwaysAllowed`: create the per-chat set on demand, then add. -/
def addAlways : List (Int × List String) → Int → String → List (Int × List String)
  | [], chatId, toolName => [(chatId, [toolName])]
  | (c, ts) :: rest, chatId, toolName =>
      if c = chatId then
        (c, if toolName ∈ ts then ts else ts ++ [toolName]) :: rest
      else (c, ts) :: addAlways rest chatId toolName

def setToolAlwaysAllowed (s : PermissionManager) (chatId : Int)
    (toolName : String) : PermissionManager :=
  { s with alwaysAllowedTools := addAlways s.alwaysAllowedTools chatId toolName }

/-- `clearAlwaysAllowed`: `alwaysAllowedTools.delete(chatId)`. -/
def clearAlwaysAllowed (s : PermissionManager) (chatId : Int) : PermissionManager :=
  { s with alwaysAllowedTools := s.alwaysAllowedTools.filter (fun e => e.1 ≠ chatId) }

/-- `getPendingPermission`: `pendingPermissions.get(permissionId)`. -/
def getPendingPermission (s : PermissionManager) (pid : String) :
    Option PendingPermission :=
  s.pendingPermissions.find? (fun p => p.id = pid)

/-- One settlement of a pending future: the entry id and the response its
`resolve` was called with. -/
abbrev Settlement := String × PermissionResponse

/-- `resolvePermission`: look up; if absent return false; otherwise clear the
timeout, delete the entry, record an always-allow response, and resolve. -/
def resolvePermission (s : PermissionManager) (pid : String)
    (resp : PermissionResponse) : PermissionManager × Bool × List Settlement :=
  match getPendingPermission s pid with
  | none => (s, false, [])
  | some pending =>
      let s1 : PermissionManager :=
        { s with activeTimers := s.activeTimers.filter (fun t => t ≠ pid),
                 pendingPermissions :=
                   s.pendingPermissions.filter (fun p => p.id ≠ pid) }
      let s2 := if resp.allowed && resp.alwaysAllow.getD false then
          setToolAlwaysAllowed s1 pending.chatId pending.toolName
        else s1
      (s2, true, [(pid, resp)])

def timeoutResponse (timeoutSeconds : Nat) : PermissionResponse :=
  { allowed := false, alwaysAllow := none,
    message := some ("Permission request timed out after "
      ++ toString timeoutSeconds ++ " seconds") }

/-- `handleTimeout`: look up; if absent do nothing; otherwise delete the
entry and resolve with the timed-out denial. -/
def handleTimeout (s : PermissionManager) (pid : String) :
    PermissionManager × List Settlement :=
  match getPendingPermission s pid with
  | none => (s, [])
  | some _ =>
      ({ s with pendingPermissions :=
            s.pendingPermissions.filter (fun p => p.id ≠ pid) },
        [(pid, timeoutResponse s.timeoutSeconds)])

/-- A registered timeout firing: the JS runtime invokes `handleTimeout` only
while the timer is registered and not cleared, and a fired timer is spent. -/
def fireTimeout (s : PermissionManager) (pid : String) :
    PermissionManager × List Settlement :=
  if pid ∈ s.activeTimers then
    handleTimeout
      { s with activeTimers := s.activeTimers.filter (fun t => t ≠ pid) } pid
  else (s, [])

def cancelResponse : PermissionResponse :=
  { allowed := false, alwaysAllow := none,
    message := some "Permission request cancelled" }

/-- Ids of the entries of `chatId`, in map iteration (insertion) order. -/
def cancelledIds (s : PermissionManager) (chatId : Int) : List String :=
  (s.pendingPermissions.filter (fun p => p.chatId = chatId)).map PendingPermission.id

/-- `cancelPendingForChat`: for every entry of the chat, clear its timeout,
delete it, and resolve it with the cancellation denial. -/
def cancelPendingForChat (s : PermissionManager) (chatId : Int) :
    PermissionManager × List Settlement :=
  ({ s with
      pendingPermissions :=
        s.pendingPermissions.filter (fun p => p.chatId ≠ chatId),
      activeTimers :=
        s.activeTimers.filter (fun t => t ∉ cancelledIds s chatId) },
    (s.pendingPermissions.filter (fun p => p.chatId = chatId)).map
      (fun p => (p.id, cancelResponse)))

def getPendingCount (s : PermissionManager) : Nat := s.pendingPermissions.length

inductive RequestOutcome where
  | immediate (resp : PermissionResponse)
  | pending (pid : String)
deriving Repr, DecidableEq

def noCallbackResponse : PermissionResponse :=
  { allowed := false, alwaysAllow := none,
    message := some "Permission system not configured" }

/-- `requestPermission` up to its first suspension point: the always-allow
fast path, the unconfigured-callback denial, or registering the timeout and
the pending entry and invoking the notify callback (`pending pid`, the
returned future).  `pid` stands for the generated unique permission id. -/
def requestPermission (s : PermissionManager) (chatId : Int)
    (toolName toolInput : String) (pid : String) :
    PermissionManager × RequestOutcome :=
  if isToolAlwaysAllowed s chatId toolName then
    (s, RequestOutcome.immediate
      { allowed := true, alwaysAllow := none, message := none })
  else if !s.hasCallback then
    (s, RequestOutcome.immediate noCallbackResponse)
  else
    ({ s with activeTimers := s.activeTimers ++ [pid],
              pendingPermissions := s.pendingPermissions
                ++ [{ id := pid, chatId := chatId, toolName := toolName,
                      toolInput := toolInput }] },
      RequestOutcome.pending pid)

/-- The response the notify-failure catch handler resolves with. -/
def notifyFailResponse : PermissionResponse :=
  { allowed := false, alwaysAllow := none,
    message := some "Failed to send permission request" }

/-- The broker events an execution can interleave: a request arriving, a user
response, a timeout firing, a chat-wide cancellation, a notify-delivery
failure (its catch handler), and the always-allow mutators. -/
inductive PermEvent where
  | request (chatId : Int) (toolName toolInput pid : String)
  | resolve (pid : String) (resp : PermissionResponse)
  | fire (pid : String)
  | cancelChat (chatId : Int)
  | notifyFail (pid : String)
  | setAlways (chatId : Int) (toolName : String)
  | clearAlways (chatId : Int)
deriving Repr, DecidableEq

def permStep (s : PermissionManager) :
    PermEvent → PermissionManager × List Settlement
  | PermEvent.request c tn ti pid => ((requestPermission s c tn ti pid).1, [])
  | PermEvent.resolve pid resp =>
      ((resolvePermission s pid resp).1, (resolvePermission s pid resp).2.2)
  | PermEvent.fire pid => fireTimeout s pid
  | PermEvent.cancelChat c => cancelPendingForChat s c
  | PermEvent.notifyFail pid =>
      ((resolvePermission s pid notifyFailResponse).1,
        (resolvePermission s pid notifyFailResponse).2.2)
  | PermEvent.setAlways c tn => (setToolAlwaysAllowed s c tn, [])
  | PermEvent.clearAlways c => (clearAlwaysAllowed s c, [])

def permRun : PermissionManager × List Settlement → List PermEvent →
    PermissionManager × List Settlement
  | acc, [] => acc
  | (s, log), e :: rest =>
      permRun ((permStep s e).1, log ++ (permStep s e).2) rest

def pendingIds (s : PermissionManager) : List String :=
  s.pendingPermissions.map PendingPermission.id

def settledIds (log : List Settlement) : List String := log.map Prod.fst

/-- Freshness of generated permission ids along a run: each `request` event
uses an id no earlier request used (`generatePermissionId` returns unique
ids). -/
def freshRun : PermissionManager → List String → List PermEvent → Bool
  | _, _, [] => true
  | s, used, e :: rest =>
      match e with
      | PermEvent.request _ _ _ pid =>
          decide (pid ∉ used) && freshRun (permStep s e).1 (used ++ [pid]) rest
      | _ => freshRun (permStep s e).1 used rest

/-- Broker invariant along a run: pending ids are unique, settled ids are
unique (each future settled at most once), no settled id is still pending,
the registered timers are exactly the pending ids, and every pending or
settled id was produced by some request (`used`). -/
def PermInv (used : List String) (s : PermissionManager)
    (log : List Settlement) : Prop :=
  (pendingIds s).Nodup
  ∧ (settledIds log).Nodup
  ∧ (∀ pid, pid ∈ settledIds log → pid ∉ pendingIds s)
  ∧ (∀ pid, pid ∈ s.activeTimers ↔ pid ∈ pendingIds s)
  ∧ (∀ pid, pid ∈ pendingIds s → pid ∈ used)
  ∧ (∀ pid, pid ∈ settledIds log → pid ∈ used)

/-- The broker state reached from a fresh manager through a list of events. -/
def reachedPerm (n : Nat) (cb : Bool) (evts : List PermEvent) : PermissionManager :=
  (permRun (PermissionManager.start n cb, []) evts).1

/-- The accumulated settlements of that run. -/
def reachedLog (n : Nat) (cb : Bool) (evts : List PermEvent) : List Settlement :=
  (permRun (PermissionManager.start n cb, []) evts).2

/-! ## SessionManager clear/delete (src/src/claude/session.ts) -/

structure Session where
  chatId : Int
  sessionId : Option String
  workingDir : String
deriving Repr, DecidableEq

/-- Modelled from the spec: the Session Store collaborator (`SQLiteStorage`,
whose source is not under src/) keyed by (chatId, botName): `clearSessionId`
keeps the record and blanks the token, `deleteSession` removes the record. -/
structure SQLiteStorage where
  records : List ((Int × String) × Option String)
deriving Repr, DecidableEq

def SQLiteStorage.clearSessionId (st : SQLiteStorage) (chatId : Int)
    (botName : String) : SQLiteStorage :=
  { records := st.records.map (fun e =>
      if e.1 = (chatId, botName) then (e.1, none) else e) }

def SQLiteStorage.deleteSession (st : SQLiteStorage) (chatId : Int)
    (botName : String) : SQLiteStorage :=
  { records := st.records.filter (fun e => e.1 ≠ (chatId, botName)) }

structure SessionManager where
  sessions : List (Int × Session)
  storage : SQLiteStorage
  botName : String
  workingDir : String
  permissionManager : PermissionManager
deriving Repr, DecidableEq

/-- `clearSession`: blank the in-memory session id if present, blank the
stored token, clear the chat's always-allow set, cancel its pending
permissions. -/
def clearSession (m : SessionManager) (chatId : Int) :
    SessionManager × List Settlement :=
  ({ m with
      sessions := m.sessions.map (fun e =>
        if e.1 = chatId then (e.1, { e.2 with sessionId := none }) else e),
      storage := m.storage.clearSessionId chatId m.botName,
      permissionManager :=
        (cancelPendingForChat (clearAlwaysAllowed m.permissionManager chatId)
          chatId).1 },
    (cancelPendingForChat (clearAlwaysAllowed m.permissionManager chatId)
      chatId).2)

/-- `deleteSession`: drop the in-memory session, delete the stored record,
clear the chat's always-allow set, cancel its pending permissions. -/
def deleteSession (m : SessionManager) (chatId : Int) :
    SessionManager × List Settlement :=
  ({ m with
      sessions := m.sessions.filter (fun e => e.1 ≠ chatId),
      storage := m.storage.deleteSession chatId m.botName,
      permissionManager :=
        (cancelPendingForChat (clearAlwaysAllowed m.permissionManager chatId)
          chatId).1 },
    (cancelPendingForChat (clearAlwaysAllowed m.permissionManager chatId)
      chatId).2)

/-! ## TelegramBot orchestration (src/src/bot/bot.ts)

`activeStreams : Map<number, ActiveStreamInfo>` is the per-chat table; the
entry's `processingPromise` is modelled by the ghost `invocationsStarted`
count (a `processStream` launch) together with the `finishProcessing` event
(`processingPromise.finally`). -/

structure TelegramBot where
  activeStreams : List (Int × MessageStream)
  invocationsStarted : Nat
deriving Repr, DecidableEq

def lookupStream : List (Int × MessageStream) → Int → Option MessageStream
  | [], _ => none
  | (c, st) :: rest, chatId =>
      if c = chatId then some st else lookupStream rest chatId

/-- `Map.set`: replace the entry in place, or append a new one. -/
def setStream : List (Int × MessageStream) → Int → MessageStream →
    List (Int × MessageStream)
  | [], chatId, st => [(chatId, st)]
  | (c, st0) :: rest, chatId, st =>
      if c = chatId then (c, st) :: rest else (c, st0) :: setStream rest chatId st

/-- `Map.delete`. -/
def removeStream (l : List (Int × MessageStream)) (chatId : Int) :
    List (Int × MessageStream) :=
  l.filter (fun e => e.1 ≠ chatId)

def streamKeys (l : List (Int × MessageStream)) : List Int := l.map Prod.fst

/-- `startNewProcessing`: create a fresh stream, push the initial message,
start processing in the background (ghost count +1), store the entry. -/
def startNewProcessing (b : TelegramBot) (chatId : Int) (text : String) :
    TelegramBot :=
  { activeStreams := setStream b.activeStreams chatId
      (MessageStream.empty.pushText text),
    invocationsStarted := b.invocationsStarted + 1 }

/-- `injectOrStartMessage`: unauthorized senders are rejected before any
stream is touched; with an active open stream the text is injected into it
(the guarded push cannot throw, the openness was just checked); otherwise a
new processing starts. -/
def injectOrStartMessage (b : TelegramBot) (chatId : Int) (authorized : Bool)
    (text : String) : TelegramBot :=
  if !authorized then b
  else
    match lookupStream b.activeStreams chatId with
    | some st =>
        if !st.isClosed then
          { b with
              activeStreams :=
                setStream b.activeStreams chatId (st.pushText text) }
        else startNewProcessing b chatId text
    | none => startNewProcessing b chatId text

/-- How `processStream` settled: normal completion, an engine error reported
by its catch block, or an unexpected exception. -/
inductive TurnOutcome where
  | success
  | engineError (msg : String)
  | unexpected (msg : String)
deriving Repr, DecidableEq

/-- The `finally` cleanup of `startNewProcessing`: runs when the processing
promise settles, whatever the outcome — close the stream, delete the entry.
Returns the closed stream for observation. -/
def finishProcessing (b : TelegramBot) (chatId : Int) (outcome : TurnOutcome) :
    TelegramBot × Option MessageStream :=
  match outcome, lookupStream b.activeStreams chatId with
  | _, none =>
      ({ b with activeStreams := removeStream b.activeStreams chatId }, none)
  | _, some st =>
      ({ b with activeStreams := removeStream b.activeStreams chatId },
        some st.close)

/-! ## Theorems -/
theorem chanInv_empty : ChanInv MessageStream.empty := by
  refine ⟨rfl, ?_, ?_, ?_⟩ <;> intro h <;> simp [MessageStream.empty] at h

theorem chanInv_push (s : MessageStream) (m : SDKUserMessage) (h : ChanInv s) :
    ChanInv (s.push m) := by
  obtain ⟨q, cons, cl, sid, plog, out, err⟩ := s
  obtain ⟨hlog, hw, hr, hd⟩ := h
  dsimp only at hlog hw hr hd
  cases cl with
  | true =>
      dsimp only [MessageStream.push, ChanInv, inflight]
      exact ⟨hlog, hw, hr, hd⟩
  | false =>
      cases cons with
      | running =>
          dsimp only [MessageStream.push, ChanInv, inflight]
          refine ⟨?_, ?_, ?_, ?_⟩
          · rw [← hlog]; simp [inflight]
          · intro h; simp at h
          · intro h; simp at h
          · intro h; simp at h
      | waiting =>
          obtain ⟨hq, -⟩ := hw rfl
          subst hq
          dsimp only [MessageStream.push, ChanInv, inflight]
          refine ⟨?_, ?_, ?_, ?_⟩
          · rw [← hlog]; simp [inflight]
          · intro h; simp at h
          · intro h; simp at h
          · intro h; simp at h
      | resumed mo =>
          dsimp only [MessageStream.push, ChanInv]
          refine ⟨?_, ?_, ?_, ?_⟩
          · rw [← hlog]; simp
          · intro h; simp at h
          · intro h; exact absurd (hr h).2 Bool.false_ne_true
          · intro h; simp at h
      | done => exact absurd (hd rfl).2 Bool.false_ne_true

theorem chanInv_close (s : MessageStream) (h : ChanInv s) : ChanInv s.close := by
  obtain ⟨q, cons, cl, sid, plog, out, err⟩ := s
  obtain ⟨hlog, hw, hr, hd⟩ := h
  dsimp only at hlog hw hr hd
  cases cons with
  | running =>
      dsimp only [MessageStream.close, ChanInv, inflight]
      refine ⟨?_, ?_, ?_, ?_⟩
      · rw [← hlog]; simp [inflight]
      · intro h; simp at h
      · intro h; simp at h
      · intro h; simp at h
  | waiting =>
      obtain ⟨hq, -⟩ := hw rfl
      subst hq
      dsimp only [MessageStream.close, ChanInv, inflight]
      refine ⟨?_, ?_, ?_, ?_⟩
      · rw [← hlog]; simp [inflight]
      · intro h; simp at h
      · intro _; exact ⟨rfl, rfl⟩
      · intro h; simp at h
  | resumed mo =>
      dsimp only [MessageStream.close, ChanInv]
      refine ⟨?_, ?_, ?_, ?_⟩
      · rw [← hlog]
      · intro h; simp at h
      · intro h; exact ⟨(hr h).1, rfl⟩
      · intro h; simp at h
  | done =>
      dsimp only [MessageStream.close, ChanInv, inflight]
      refine ⟨?_, ?_, ?_, ?_⟩
      · rw [← hlog]; simp [inflight]
      · intro h; simp at h
      · intro h; simp at h
      · intro _; exact ⟨(hd rfl).1, rfl⟩

theorem chanInv_consume (s : MessageStream) (h : ChanInv s) : ChanInv (consumeStep s) := by
  obtain ⟨q, cons, cl, sid, plog, out, err⟩ := s
  obtain ⟨hlog, hw, hr, hd⟩ := h
  dsimp only at hlog hw hr hd
  cases cons with
  | running =>
      cases q with
      | cons m rest =>
          dsimp only [consumeStep, ChanInv, inflight]
          refine ⟨?_, ?_, ?_, ?_⟩
          · rw [← hlog]; simp [inflight]
          · intro h; simp at h
          · intro h; simp at h
          · intro h; simp at h
      | nil =>
          cases cl with
          | true =>
              dsimp only [consumeStep, ChanInv, inflight]
              refine ⟨?_, ?_, ?_, ?_⟩
              · rw [← hlog]; simp [inflight]
              · intro h; simp at h
              · intro h; simp at h
              · intro _; exact ⟨rfl, rfl⟩
          | false =>
              dsimp only [consumeStep, ChanInv, inflight]
              refine ⟨?_, ?_, ?_, ?_⟩
              · rw [← hlog]; simp [inflight]
              · intro _; exact ⟨rfl, rfl⟩
              · intro h; simp at h
              · intro h; simp at h
  | waiting =>
      dsimp only [consumeStep, ChanInv, inflight]
      exact ⟨hlog, hw, hr, hd⟩
  | resumed mo =>
      cases mo with
      | some m =>
          dsimp only [consumeStep, ChanInv, inflight]
          refine ⟨?_, ?_, ?_, ?_⟩
          · rw [← hlog]; simp [inflight]
          · intro h; simp at h
          · intro h; simp at h
          · intro h; simp at h
      | none =>
          obtain ⟨hq, hc⟩ := hr rfl
          subst hq
          dsimp only [consumeStep, ChanInv, inflight]
          refine ⟨?_, ?_, ?_, ?_⟩
          · rw [← hlog]; simp [inflight]
          · intro h; simp at h
          · intro h; simp at h
          · intro _; exact ⟨rfl, hc⟩
  | done =>
      dsimp only [consumeStep, ChanInv, inflight]
      exact ⟨hlog, hw, hr, hd⟩

theorem chanInv_step (s : MessageStream) (a : ChanAct) (h : ChanInv s) :
    ChanInv (chanStep s a) := by
  cases a with
  | push m => exact chanInv_push s m h
  | close => exact chanInv_close s h
  | consume => exact chanInv_consume s h

theorem chanInv_run (t : List ChanAct) (s : MessageStream) (h : ChanInv s) :
    ChanInv (chanRun s t) := by
  induction t generalizing s with
  | nil => exact h
  | cons a rest ih => exact ih (chanStep s a) (chanInv_step s a h)

theorem consumeStep_fields (s : MessageStream) :
    (consumeStep s).closed = s.closed ∧ (consumeStep s).pushedLog = s.pushedLog := by
  obtain ⟨q, cons, cl, sid, plog, out, err⟩ := s
  cases cons with
  | running =>
      cases q with
      | nil => cases cl <;> exact ⟨rfl, rfl⟩
      | cons m rest => exact ⟨rfl, rfl⟩
  | waiting => exact ⟨rfl, rfl⟩
  | resumed mo => cases mo <;> exact ⟨rfl, rfl⟩
  | done => exact ⟨rfl, rfl⟩

theorem consumeStep_of_done (s : MessageStream) (h : s.consumer = ConsumerState.done) :
    consumeStep s = s := by
  obtain ⟨q, cons, cl, sid, plog, out, err⟩ := s
  dsimp only at h
  subst h
  rfl

theorem measure_zero_done (s : MessageStream) (hm : consumerMeasure s = 0) :
    s.consumer = ConsumerState.done := by
  obtain ⟨q, cons, cl, sid, plog, out, err⟩ := s
  cases cons with
  | running => simp [consumerMeasure] at hm
  | waiting => simp [consumerMeasure] at hm
  | resumed mo => cases mo <;> simp [consumerMeasure] at hm
  | done => rfl

theorem done_output (s : MessageStream) (hinv : ChanInv s)
    (hd : s.consumer = ConsumerState.done) : s.output = s.pushedLog := by
  obtain ⟨hlog, -, -, hdq⟩ := hinv
  obtain ⟨hq, -⟩ := hdq hd
  rw [← hlog, hd, hq]
  simp [inflight]

theorem consumeStep_done_or_decrease (s : MessageStream) (hinv : ChanInv s)
    (hc : s.closed = true) :
    s.consumer = ConsumerState.done ∨
      consumerMeasure (consumeStep s) < consumerMeasure s := by
  obtain ⟨q, cons, cl, sid, plog, out, err⟩ := s
  obtain ⟨hlog, hw, hr, hd⟩ := hinv
  dsimp only at hlog hw hr hd hc
  subst hc
  cases cons with
  | running =>
      right
      cases q with
      | cons m rest => simp [consumeStep, consumerMeasure]
      | nil => simp [consumeStep, consumerMeasure]
  | waiting => exact absurd (hw rfl).2 (by simp)
  | resumed mo =>
      right
      cases mo <;> simp [consumeStep, consumerMeasure]
  | done => exact Or.inl rfl

theorem consumeN_drains : ∀ (n : Nat) (s : MessageStream), ChanInv s →
    s.closed = true → consumerMeasure s ≤ n →
    (consumeN n s).consumer = ConsumerState.done ∧
      (consumeN n s).output = s.pushedLog := by
  intro n
  induction n with
  | zero =>
      intro s hinv hc hm
      have hd := measure_zero_done s (Nat.le_zero.mp hm)
      exact ⟨hd, done_output s hinv hd⟩
  | succ n ih =>
      intro s hinv hc hm
      rcases consumeStep_done_or_decrease s hinv hc with hd | hlt
      · have hq : s.queue = [] := (hinv.2.2.2 hd).1
        have h0 : consumerMeasure s = 0 := by simp [consumerMeasure, hd, hq]
        simp only [consumeN]
        rw [consumeStep_of_done s hd]
        exact ih s hinv hc (by omega)
      · have hinv' := chanInv_consume s hinv
        have hc' : (consumeStep s).closed = true := by
          rw [(consumeStep_fields s).1]; exact hc
        simp only [consumeN]
        obtain ⟨h1, h2⟩ := ih (consumeStep s) hinv' hc' (by omega)
        exact ⟨h1, by rw [h2, (consumeStep_fields s).2]⟩

theorem push_pushedLog_open (s : MessageStream) (m : SDKUserMessage)
    (hc : s.closed = false) : (s.push m).pushedLog = s.pushedLog ++ [m] := by
  obtain ⟨q, cons, cl, sid, plog, out, err⟩ := s
  dsimp only at hc
  subst hc
  cases cons <;> rfl

theorem push_errored_closed (s : MessageStream) (m : SDKUserMessage)
    (hc : s.closed = true) : (s.push m).errored = true := by
  obtain ⟨q, cons, cl, sid, plog, out, err⟩ := s
  dsimp only at hc
  subst hc
  rfl

theorem close_pushedLog (s : MessageStream) : s.close.pushedLog = s.pushedLog := by
  obtain ⟨q, cons, cl, sid, plog, out, err⟩ := s
  cases cons <;> rfl

theorem close_closed (s : MessageStream) : s.close.closed = true := by
  obtain ⟨q, cons, cl, sid, plog, out, err⟩ := s
  cases cons <;> rfl

theorem chanStep_errored_mono (s : MessageStream) (a : ChanAct)
    (h : s.errored = true) : (chanStep s a).errored = true := by
  obtain ⟨q, cons, cl, sid, plog, out, err⟩ := s
  dsimp only at h
  subst h
  cases a with
  | push m =>
      dsimp only [chanStep, MessageStream.push]
      cases cl with
      | true => rfl
      | false => cases cons <;> rfl
  | close =>
      dsimp only [chanStep, MessageStream.close]
      cases cons <;> rfl
  | consume =>
      dsimp only [chanStep]
      cases cons with
      | running =>
          cases q with
          | nil => cases cl <;> rfl
          | cons m rest => rfl
      | waiting => rfl
      | resumed mo => cases mo <;> rfl
      | done => rfl

theorem chanRun_errored_mono (t : List ChanAct) (s : MessageStream)
    (h : s.errored = true) : (chanRun s t).errored = true := by
  induction t generalizing s with
  | nil => exact h
  | cons a rest ih => exact ih (chanStep s a) (chanStep_errored_mono s a h)

theorem chanRun_pushedLog (t : List ChanAct) : ∀ (s : MessageStream),
    (chanRun s t).errored = false →
    (chanRun s t).pushedLog = s.pushedLog ++ pushesOf t := by
  induction t with
  | nil => intro s _; simp [chanRun, pushesOf]
  | cons a rest ih =>
      intro s hok
      have hstep : chanRun s (a :: rest) = chanRun (chanStep s a) rest := rfl
      rw [hstep] at hok ⊢
      cases a with
      | push m =>
          cases hc : s.closed with
          | true =>
              have herr := chanRun_errored_mono rest (s.push m)
                (push_errored_closed s m hc)
              rw [show chanStep s (ChanAct.push m) = s.push m from rfl] at hok
              simp [herr] at hok
          | false =>
              rw [ih _ hok]
              rw [show chanStep s (ChanAct.push m) = s.push m from rfl,
                push_pushedLog_open s m hc]
              simp [pushesOf]
      | close =>
          rw [ih _ hok]
          rw [show chanStep s ChanAct.close = s.close from rfl, close_pushedLog]
          simp [pushesOf]
      | consume =>
          rw [ih _ hok]
          rw [show chanStep s ChanAct.consume = consumeStep s from rfl,
            (consumeStep_fields s).2]
          simp [pushesOf]

/-- Claim C2: for every sequence of items pushed into the channel before
`close` — formalised as any interleaving `t` of pushes and consumer steps in
which no push hit a closed channel — running the channel from the initial
state through `t` and a final `close`, and then letting the consumer drain,
the consumer terminates (the yielded sequence is finite) and its output is
exactly the pushed payloads, each exactly once, in push order (FIFO,
including items handed directly to a waiting consumer). -/
theorem messageStream_fifo_exactly_once (t : List ChanAct)
    (hok : (chanRun MessageStream.empty t).errored = false) :
    (consumeN (consumerMeasure (chanRun MessageStream.empty (t ++ [ChanAct.close])))
        (chanRun MessageStream.empty (t ++ [ChanAct.close]))).consumer
      = ConsumerState.done
    ∧ (consumeN (consumerMeasure (chanRun MessageStream.empty (t ++ [ChanAct.close])))
        (chanRun MessageStream.empty (t ++ [ChanAct.close]))).output
      = pushesOf t := by
  have hsplit : chanRun MessageStream.empty (t ++ [ChanAct.close])
      = (chanRun MessageStream.empty t).close := by
    simp [chanRun, List.foldl_append]
    rfl
  have hinv : ChanInv (chanRun MessageStream.empty (t ++ [ChanAct.close])) := by
    rw [hsplit]
    exact chanInv_close _ (chanInv_run t _ chanInv_empty)
  have hcl : (chanRun MessageStream.empty (t ++ [ChanAct.close])).closed = true := by
    rw [hsplit]; exact close_closed _
  obtain ⟨h1, h2⟩ := consumeN_drains _ _ hinv hcl (Nat.le_refl _)
  refine ⟨h1, ?_⟩
  rw [h2, hsplit, close_pushedLog, chanRun_pushedLog t MessageStream.empty hok]
  simp [MessageStream.empty]

/-- Witness for C2 on the interleaving push a, consume, consume (the consumer
drains the queue and blocks), push b (direct handoff), push c (queued). -/
theorem messageStream_fifo_exactly_once_witness :
    (chanRun MessageStream.empty
        [ChanAct.push ⟨"a", ""⟩, ChanAct.consume, ChanAct.consume,
          ChanAct.push ⟨"b", ""⟩, ChanAct.push ⟨"c", ""⟩]).errored = false
    ∧ (consumeN (consumerMeasure (chanRun MessageStream.empty
          ([ChanAct.push ⟨"a", ""⟩, ChanAct.consume, ChanAct.consume,
            ChanAct.push ⟨"b", ""⟩, ChanAct.push ⟨"c", ""⟩] ++ [ChanAct.close])))
        (chanRun MessageStream.empty
          ([ChanAct.push ⟨"a", ""⟩, ChanAct.consume, ChanAct.consume,
            ChanAct.push ⟨"b", ""⟩, ChanAct.push ⟨"c", ""⟩] ++ [ChanAct.close]))).output
      = pushesOf [ChanAct.push ⟨"a", ""⟩, ChanAct.consume, ChanAct.consume,
          ChanAct.push ⟨"b", ""⟩, ChanAct.push ⟨"c", ""⟩] :=
  ⟨by decide,
    (messageStream_fifo_exactly_once
      [ChanAct.push ⟨"a", ""⟩, ChanAct.consume, ChanAct.consume,
        ChanAct.push ⟨"b", ""⟩, ChanAct.push ⟨"c", ""⟩] (by decide)).2⟩

/-- Claim C3: after `close`, every `push` fails synchronously (the
`Cannot push to closed stream` error, recorded by `errored`) and leaves the
queue, logs and consumer untouched; `close` is idempotent, never throws, and
leaves the channel closed. -/
theorem push_after_close_fails_close_idempotent (s : MessageStream)
    (m : SDKUserMessage) :
    (s.closed = true →
        (s.push m).errored = true ∧ (s.push m).queue = s.queue
          ∧ (s.push m).pushedLog = s.pushedLog ∧ (s.push m).output = s.output
          ∧ (s.push m).consumer = s.consumer ∧ (s.push m).closed = true)
    ∧ s.close.close = s.close
    ∧ s.close.closed = true
    ∧ s.close.errored = s.errored := by
  obtain ⟨q, cons, cl, sid, plog, out, err⟩ := s
  refine ⟨?_, ?_, ?_, ?_⟩
  · intro hc
    dsimp only at hc
    subst hc
    exact ⟨rfl, rfl, rfl, rfl, rfl, rfl⟩
  · cases cons <;> rfl
  · cases cons <;> rfl
  · cases cons <;> rfl

/-- Witness for C3: a concrete closed channel rejects a push. -/
theorem push_after_close_fails_witness :
    (MessageStream.push
        ⟨[⟨"q", ""⟩], ConsumerState.running, true, "", [⟨"q", ""⟩], [], false⟩
        ⟨"x", ""⟩).errored = true
    ∧ (MessageStream.push
        ⟨[⟨"q", ""⟩], ConsumerState.running, true, "", [⟨"q", ""⟩], [], false⟩
        ⟨"x", ""⟩).queue = [⟨"q", ""⟩] :=
  ⟨((push_after_close_fails_close_idempotent
      ⟨[⟨"q", ""⟩], ConsumerState.running, true, "", [⟨"q", ""⟩], [], false⟩
      ⟨"x", ""⟩).1 rfl).1,
    ((push_after_close_fails_close_idempotent
      ⟨[⟨"q", ""⟩], ConsumerState.running, true, "", [⟨"q", ""⟩], [], false⟩
      ⟨"x", ""⟩).1 rfl).2.1⟩

theorem getPending_some_of_mem (s : PermissionManager) (pid : String)
    (h : pid ∈ pendingIds s) :
    ∃ p, getPendingPermission s pid = some p ∧ p.id = pid
      ∧ p ∈ s.pendingPermissions := by
  cases hfind : getPendingPermission s pid with
  | none =>
      rw [getPendingPermission] at hfind
      obtain ⟨p, hp, hid⟩ := List.mem_map.mp h
      have := List.find?_eq_none.mp hfind p hp
      simp [hid] at this
  | some p =>
      rw [getPendingPermission] at hfind
      refine ⟨p, rfl, ?_, List.mem_of_find?_eq_some hfind⟩
      have := List.find?_some hfind
      simpa using this

theorem getPending_none_of_not_mem (s : PermissionManager) (pid : String)
    (h : pid ∉ pendingIds s) : getPendingPermission s pid = none := by
  rw [getPendingPermission]
  apply List.find?_eq_none.mpr
  intro p hp
  simp only [decide_eq_true_eq]
  intro hid
  exact h (List.mem_map.mpr ⟨p, hp, hid⟩)

theorem resolve_found (s : PermissionManager) (pid : String)
    (resp : PermissionResponse) (p : PendingPermission)
    (hfind : getPendingPermission s pid = some p) :
    (resolvePermission s pid resp).1.pendingPermissions
        = s.pendingPermissions.filter (fun q => q.id ≠ pid)
    ∧ (resolvePermission s pid resp).1.activeTimers
        = s.activeTimers.filter (fun t => t ≠ pid)
    ∧ (resolvePermission s pid resp).2.1 = true
    ∧ (resolvePermission s pid resp).2.2 = [(pid, resp)]
    ∧ (resolvePermission s pid resp).1.timeoutSeconds = s.timeoutSeconds
    ∧ (resolvePermission s pid resp).1.hasCallback = s.hasCallback := by
  simp only [resolvePermission, hfind]
  by_cases hb : (resp.allowed && resp.alwaysAllow.getD false) = true
  · rw [if_pos hb]
    simp [setToolAlwaysAllowed]
  · rw [if_neg hb]
    simp

theorem resolve_notfound (s : PermissionManager) (pid : String)
    (resp : PermissionResponse) (hfind : getPendingPermission s pid = none) :
    resolvePermission s pid resp = (s, false, []) := by
  simp only [resolvePermission, hfind]

theorem pid_not_mem_filtered (l : List PendingPermission) (pid : String) :
    pid ∉ (l.filter (fun q => q.id ≠ pid)).map PendingPermission.id := by
  intro hmem
  obtain ⟨q, hq, hqid⟩ := List.mem_map.mp hmem
  rw [List.mem_filter] at hq
  simp only [decide_eq_true_eq] at hq
  exact hq.2 hqid

/-- Claim C10: a requestPermission call with no notify callback configured
and the tool not always-allowed returns the immediate denial with message
`Permission system not configured`, leaving the broker state untouched: no
pending entry, no timer, no blocking of the caller. -/
theorem requestPermission_no_callback (s : PermissionManager) (c : Int)
    (tn ti pid : String) (hfast : isToolAlwaysAllowed s c tn = false)
    (hcb : s.hasCallback = false) :
    requestPermission s c tn ti pid
        = (s, RequestOutcome.immediate noCallbackResponse)
    ∧ noCallbackResponse.allowed = false
    ∧ noCallbackResponse.message = some "Permission system not configured" := by
  refine ⟨?_, rfl, rfl⟩
  rw [requestPermission, if_neg (by simp [hfast]), if_pos (by simp [hcb])]

/-- Witness for C10 on a freshly constructed broker with no callback. -/
theorem requestPermission_no_callback_witness :
    requestPermission (PermissionManager.start 60 false) 5 "Bash" "{}" "p1"
      = (PermissionManager.start 60 false,
          RequestOutcome.immediate noCallbackResponse) :=
  (requestPermission_no_callback (PermissionManager.start 60 false) 5 "Bash" "{}"
    "p1" (by decide) (by decide)).1

/-- Claim C6: when the notify delivery promise rejects after a request
registered its pending entry, the catch handler resolves that request as an
immediate denial: the entry is removed and its future settles with
allowed:false; the failure is absorbed by the handler (a total step on the
broker state), never escaping across the tool-call boundary. -/
theorem notify_failure_immediate_denial (s : PermissionManager) (c : Int)
    (tn ti pid : String) (hfast : isToolAlwaysAllowed s c tn = false)
    (hcb : s.hasCallback = true) :
    (requestPermission s c tn ti pid).2 = RequestOutcome.pending pid
    ∧ (permStep (requestPermission s c tn ti pid).1
        (PermEvent.notifyFail pid)).2 = [(pid, notifyFailResponse)]
    ∧ notifyFailResponse.allowed = false
    ∧ pid ∉ pendingIds (permStep (requestPermission s c tn ti pid).1
        (PermEvent.notifyFail pid)).1 := by
  have hreq : requestPermission s c tn ti pid
      = ({ s with
            activeTimers := s.activeTimers ++ [pid],
            pendingPermissions := s.pendingPermissions ++ [⟨pid, c, tn, ti⟩] },
          RequestOutcome.pending pid) := by
    rw [requestPermission, if_neg (by simp [hfast]), if_neg (by simp [hcb])]
  rw [hreq]
  have hpid : pid ∈ pendingIds
      ({ s with
          activeTimers := s.activeTimers ++ [pid],
          pendingPermissions := s.pendingPermissions ++ [⟨pid, c, tn, ti⟩] }
        : PermissionManager) := by
    simp [pendingIds]
  obtain ⟨p, hfind, -, -⟩ := getPending_some_of_mem _ pid hpid
  obtain ⟨hpend, -, -, hlog, -, -⟩ := resolve_found _ pid notifyFailResponse p hfind
  refine ⟨rfl, hlog, rfl, ?_⟩
  show pid ∉ pendingIds (resolvePermission _ pid notifyFailResponse).1
  rw [pendingIds, hpend]
  exact pid_not_mem_filtered _ pid

/-- Witness for C6 on a concrete broker. -/
theorem notify_failure_immediate_denial_witness :
    (permStep (requestPermission (PermissionManager.start 60 true) 5 "Bash" "{}"
        "p1").1 (PermEvent.notifyFail "p1")).2 = [("p1", notifyFailResponse)] :=
  (notify_failure_immediate_denial (PermissionManager.start 60 true) 5 "Bash" "{}"
    "p1" (by decide) (by decide)).2.1

/-- Counterexample to C5 as stated: the timed-out settlement carries the
message `Permission request timed out after N seconds`, not the literal
message `timed out`. -/
theorem timeout_message_counterexample :
    (fireTimeout
        { pendingPermissions := [⟨"p1", 7, "Bash", "ls"⟩],
          alwaysAllowedTools := [], activeTimers := ["p1"],
          timeoutSeconds := 2, hasCallback := true } "p1").2
      = [("p1",
          { allowed := false, alwaysAllow := none,
            message := some "Permission request timed out after 2 seconds" })]
    ∧ (fireTimeout
        { pendingPermissions := [⟨"p1", 7, "Bash", "ls"⟩],
          alwaysAllowedTools := [], activeTimers := ["p1"],
          timeoutSeconds := 2, hasCallback := true } "p1").2
      ≠ [("p1",
          { allowed := false, alwaysAllow := none,
            message := some "timed out" })] :=
  ⟨by decide, by decide⟩

/-- Claim C5 (amended): a timeout firing while its entry is still present
removes the entry from the pending table and settles the future with
allowed:false and the message `Permission request timed out after N seconds`
(N the configured timeout), and its effect on the broker state and on the
settlement is exactly that of `resolvePermission` with that response — the
same removal path. -/
theorem timeout_firing_removal_path (s : PermissionManager) (pid : String)
    (hpend : pid ∈ pendingIds s) (htimer : pid ∈ s.activeTimers) :
    (fireTimeout s pid).1
        = (resolvePermission s pid (timeoutResponse s.timeoutSeconds)).1
    ∧ (fireTimeout s pid).2
        = (resolvePermission s pid (timeoutResponse s.timeoutSeconds)).2.2
    ∧ (fireTimeout s pid).2 = [(pid, timeoutResponse s.timeoutSeconds)]
    ∧ (timeoutResponse s.timeoutSeconds).allowed = false
    ∧ pid ∉ pendingIds (fireTimeout s pid).1 := by
  obtain ⟨p, hfind, -, -⟩ := getPending_some_of_mem s pid hpend
  have hfind2 : getPendingPermission
      { s with activeTimers := s.activeTimers.filter (fun t => t ≠ pid) } pid
      = some p := hfind
  have hfire : fireTimeout s pid
      = ({ s with
            activeTimers := s.activeTimers.filter (fun t => t ≠ pid),
            pendingPermissions :=
              s.pendingPermissions.filter (fun q => q.id ≠ pid) },
          [(pid, timeoutResponse s.timeoutSeconds)]) := by
    rw [fireTimeout, if_pos htimer]
    simp only [handleTimeout, hfind2]
  have hres : resolvePermission s pid (timeoutResponse s.timeoutSeconds)
      = ({ s with
            activeTimers := s.activeTimers.filter (fun t => t ≠ pid),
            pendingPermissions :=
              s.pendingPermissions.filter (fun q => q.id ≠ pid) },
          true, [(pid, timeoutResponse s.timeoutSeconds)]) := by
    simp only [resolvePermission, hfind]
    rw [if_neg (by simp [timeoutResponse])]
  refine ⟨by rw [hfire, hres], by rw [hfire, hres], by rw [hfire], rfl, ?_⟩
  rw [hfire]
  exact pid_not_mem_filtered _ pid

/-- Witness for C5 (amended) on a concrete broker with one pending entry. -/
theorem timeout_firing_removal_path_witness :
    (fireTimeout
        { pendingPermissions := [⟨"p1", 7, "Bash", "ls"⟩],
          alwaysAllowedTools := [], activeTimers := ["p1"],
          timeoutSeconds := 2, hasCallback := true } "p1").2
      = [("p1", timeoutResponse 2)] :=
  (timeout_firing_removal_path
    { pendingPermissions := [⟨"p1", 7, "Bash", "ls"⟩],
      alwaysAllowedTools := [], activeTimers := ["p1"],
      timeoutSeconds := 2, hasCallback := true } "p1"
    (by decide) (by decide)).2.2.1

theorem isToolAllowed_iff (s : PermissionManager) (c : Int) (t : String) :
    isToolAlwaysAllowed s c t = true
      ↔ ∃ ts, lookupTools s.alwaysAllowedTools c = some ts ∧ t ∈ ts := by
  rw [isToolAlwaysAllowed]
  cases h : lookupTools s.alwaysAllowedTools c with
  | none => simp
  | some ts => simp

theorem lookupTools_addAlways_same (l : List (Int × List String)) (c : Int)
    (t : String) :
    ∃ ts, lookupTools (addAlways l c t) c = some ts ∧ t ∈ ts := by
  induction l with
  | nil => exact ⟨[t], by simp [addAlways, lookupTools], by simp⟩
  | cons e rest ih =>
      obtain ⟨c0, ts0⟩ := e
      by_cases hc : c0 = c
      · subst hc
        by_cases hmem : t ∈ ts0
        · exact ⟨ts0, by simp [addAlways, lookupTools, hmem], hmem⟩
        · exact ⟨ts0 ++ [t], by simp [addAlways, lookupTools, hmem], by simp⟩
      · obtain ⟨ts, hl, hm⟩ := ih
        refine ⟨ts, ?_, hm⟩
        simp only [addAlways, lookupTools, hc, if_neg, if_false]
        simpa [hc] using hl

theorem lookupTools_addAlways_mono (l : List (Int × List String)) (c2 : Int)
    (t2 : String) (c : Int) (t : String)
    (h : ∃ ts, lookupTools l c = some ts ∧ t ∈ ts) :
    ∃ ts, lookupTools (addAlways l c2 t2) c = some ts ∧ t ∈ ts := by
  induction l with
  | nil => simp [lookupTools] at h
  | cons e rest ih =>
      obtain ⟨c0, ts0⟩ := e
      obtain ⟨ts, hl, hm⟩ := h
      by_cases hc0 : c0 = c
      · subst hc0
        have hts : ts0 = ts := by simpa [lookupTools] using hl
        subst hts
        by_cases hc2 : c0 = c2
        · subst hc2
          by_cases hmem : t2 ∈ ts0
          · exact ⟨ts0, by simp [addAlways, lookupTools, hmem], hm⟩
          · exact ⟨ts0 ++ [t2], by simp [addAlways, lookupTools, hmem],
              List.mem_append_left _ hm⟩
        · exact ⟨ts0, by simp [addAlways, lookupTools, hc2], hm⟩
      · have hl' : lookupTools rest c = some ts := by simpa [lookupTools, hc0] using hl
        by_cases hc2 : c0 = c2
        · subst hc2
          exact ⟨ts, by simp [addAlways, lookupTools, hc0]; exact hl', hm⟩
        · obtain ⟨ts', h1, h2⟩ := ih ⟨ts, hl', hm⟩
          exact ⟨ts', by simp [addAlways, lookupTools, hc0, hc2]; exact h1, h2⟩

theorem lookupTools_filter_ne (l : List (Int × List String)) (c2 c : Int)
    (hne : c ≠ c2) :
    lookupTools (l.filter (fun e => e.1 ≠ c2)) c = lookupTools l c := by
  induction l with
  | nil => rfl
  | cons e rest ih =>
      obtain ⟨c0, ts0⟩ := e
      simp only [ne_eq, decide_not] at ih ⊢
      by_cases hc2 : c0 = c2
      · have hcc : ¬(c0 = c) := fun hh => hne (hh.symm.trans hc2)
        have hc2c : ¬(c2 = c) := fun hh => hne hh.symm
        simp [List.filter_cons, hc2, lookupTools, hcc, hc2c, ih]
      · simp [List.filter_cons, hc2, lookupTools, ih]

theorem always_of_field_eq (s2 s : PermissionManager) (c : Int) (t : String)
    (hf : s2.alwaysAllowedTools = s.alwaysAllowedTools)
    (h : isToolAlwaysAllowed s c t = true) :
    isToolAlwaysAllowed s2 c t = true := by
  obtain ⟨ts, hl, hm⟩ := (isToolAllowed_iff s c t).mp h
  exact (isToolAllowed_iff s2 c t).mpr ⟨ts, by rw [hf]; exact hl, hm⟩

theorem requestPermission_always_eq (s : PermissionManager) (c2 : Int)
    (tn ti pid : String) :
    (requestPermission s c2 tn ti pid).1.alwaysAllowedTools
      = s.alwaysAllowedTools := by
  rw [requestPermission]
  by_cases h1 : isToolAlwaysAllowed s c2 tn = true
  · rw [if_pos h1]
  · rw [if_neg h1]
    by_cases h2 : (!s.hasCallback) = true
    · rw [if_pos h2]
    · rw [if_neg h2]

theorem handleTimeout_always_eq (s : PermissionManager) (pid : String) :
    (handleTimeout s pid).1.alwaysAllowedTools = s.alwaysAllowedTools := by
  cases h : getPendingPermission s pid <;> simp [handleTimeout, h]

theorem fireTimeout_always_eq (s : PermissionManager) (pid : String) :
    (fireTimeout s pid).1.alwaysAllowedTools = s.alwaysAllowedTools := by
  rw [fireTimeout]
  by_cases h : pid ∈ s.activeTimers
  · rw [if_pos h]
    exact handleTimeout_always_eq _ pid
  · rw [if_neg h]

theorem setToolAlwaysAllowed_self (s : PermissionManager) (c : Int) (t : String) :
    isToolAlwaysAllowed (setToolAlwaysAllowed s c t) c t = true :=
  (isToolAllowed_iff _ c t).mpr (lookupTools_addAlways_same s.alwaysAllowedTools c t)

theorem setToolAlwaysAllowed_mono (s : PermissionManager) (c2 : Int) (t2 : String)
    (c : Int) (t : String) (h : isToolAlwaysAllowed s c t = true) :
    isToolAlwaysAllowed (setToolAlwaysAllowed s c2 t2) c t = true :=
  (isToolAllowed_iff _ c t).mpr
    (lookupTools_addAlways_mono _ c2 t2 c t ((isToolAllowed_iff s c t).mp h))

theorem resolvePermission_preserves_always (s : PermissionManager) (pid : String)
    (resp : PermissionResponse) (c : Int) (t : String)
    (h : isToolAlwaysAllowed s c t = true) :
    isToolAlwaysAllowed (resolvePermission s pid resp).1 c t = true := by
  cases hfind : getPendingPermission s pid with
  | none => rw [resolve_notfound s pid resp hfind]; exact h
  | some p =>
      obtain ⟨ts, hl, hm⟩ := (isToolAllowed_iff s c t).mp h
      apply (isToolAllowed_iff _ c t).mpr
      simp only [resolvePermission, hfind]
      by_cases hb : (resp.allowed && resp.alwaysAllow.getD false) = true
      · rw [if_pos hb]
        exact lookupTools_addAlways_mono s.alwaysAllowedTools p.chatId p.toolName
          c t ⟨ts, hl, hm⟩
      · rw [if_neg hb]
        exact ⟨ts, hl, hm⟩

theorem clearAlwaysAllowed_other (s : PermissionManager) (c2 c : Int) (t : String)
    (hne : c ≠ c2) (h : isToolAlwaysAllowed s c t = true) :
    isToolAlwaysAllowed (clearAlwaysAllowed s c2) c t = true := by
  obtain ⟨ts, hl, hm⟩ := (isToolAllowed_iff s c t).mp h
  apply (isToolAllowed_iff _ c t).mpr
  refine ⟨ts, ?_, hm⟩
  rw [show (clearAlwaysAllowed s c2).alwaysAllowedTools
      = s.alwaysAllowedTools.filter (fun e => e.1 ≠ c2) from rfl]
  rw [lookupTools_filter_ne s.alwaysAllowedTools c2 c hne]
  exact hl

theorem permStep_preserves_always (s : PermissionManager) (c : Int) (t : String)
    (e : PermEvent) (h : isToolAlwaysAllowed s c t = true)
    (hne : e ≠ PermEvent.clearAlways c) :
    isToolAlwaysAllowed (permStep s e).1 c t = true := by
  cases e with
  | request c2 tn ti pid =>
      exact always_of_field_eq _ s c t (requestPermission_always_eq s c2 tn ti pid) h
  | resolve pid resp => exact resolvePermission_preserves_always s pid resp c t h
  | fire pid => exact always_of_field_eq _ s c t (fireTimeout_always_eq s pid) h
  | cancelChat c2 => exact always_of_field_eq _ s c t rfl h
  | notifyFail pid =>
      exact resolvePermission_preserves_always s pid notifyFailResponse c t h
  | setAlways c2 t2 => exact setToolAlwaysAllowed_mono s c2 t2 c t h
  | clearAlways c2 =>
      have hcc : c ≠ c2 := fun hh => hne (by rw [hh])
      exact clearAlwaysAllowed_other s c2 c t hcc h

theorem permRun_preserves_always (evts : List PermEvent) :
    ∀ (s : PermissionManager) (log : List Settlement) (c : Int) (t : String),
    isToolAlwaysAllowed s c t = true →
    (∀ e ∈ evts, e ≠ PermEvent.clearAlways c) →
    isToolAlwaysAllowed (permRun (s, log) evts).1 c t = true := by
  induction evts with
  | nil => intro s log c t h _; exact h
  | cons e rest ih =>
      intro s log c t h hno
      exact ih _ _ c t
        (permStep_preserves_always s c t e h (hno e (by simp)))
        (fun e2 he2 => hno e2 (by simp [he2]))

/-- Claim C4: once a response with allowed and alwaysAllow has been applied
through resolvePermission for a pending entry of chat c and tool t, the
always-allow set holds (c, t); every requestPermission for a chat and tool in
the always-allow set resolves immediately to allowed:true with the broker
state unchanged — no pending entry created, no timeout registered, and no
notify callback invoked (only the pending outcome invokes it); and the
always-allow fact persists across every later broker event other than the
clearing of that chat's always-allow set (done on session clear/delete). -/
theorem always_allow_fast_path (s : PermissionManager) (pid : String)
    (resp : PermissionResponse) (p : PendingPermission)
    (hfind : getPendingPermission s pid = some p)
    (hallow : resp.allowed = true) (halways : resp.alwaysAllow = some true) :
    isToolAlwaysAllowed (resolvePermission s pid resp).1 p.chatId p.toolName = true
    ∧ (∀ (s2 : PermissionManager) (c : Int) (tn ti pid2 : String),
        isToolAlwaysAllowed s2 c tn = true →
        requestPermission s2 c tn ti pid2
          = (s2, RequestOutcome.immediate
              { allowed := true, alwaysAllow := none, message := none }))
    ∧ (∀ (s2 : PermissionManager) (c : Int) (tn : String)
          (evts : List PermEvent) (log : List Settlement),
        isToolAlwaysAllowed s2 c tn = true →
        (∀ e ∈ evts, e ≠ PermEvent.clearAlways c) →
        isToolAlwaysAllowed (permRun (s2, log) evts).1 c tn = true) := by
  refine ⟨?_, ?_, ?_⟩
  · simp only [resolvePermission, hfind]
    rw [if_pos (by simp [hallow, halways])]
    exact setToolAlwaysAllowed_self _ p.chatId p.toolName
  · intro s2 c tn ti pid2 hfast
    rw [requestPermission, if_pos hfast]
  · intro s2 c tn evts log h hno
    exact permRun_preserves_always evts s2 log c tn h hno

/-- Witness for C4: resolving a concrete pending Bash request with
alwaysAllow marks Bash always-allowed for that chat. -/
theorem always_allow_fast_path_witness :
    isToolAlwaysAllowed
      (resolvePermission
        { pendingPermissions := [⟨"p1", 5, "Bash", "ls"⟩],
          alwaysAllowedTools := [], activeTimers := ["p1"],
          timeoutSeconds := 60, hasCallback := true } "p1"
        { allowed := true, alwaysAllow := some true, message := none }).1
      5 "Bash" = true :=
  (always_allow_fast_path
    { pendingPermissions := [⟨"p1", 5, "Bash", "ls"⟩],
      alwaysAllowedTools := [], activeTimers := ["p1"],
      timeoutSeconds := 60, hasCallback := true } "p1"
    { allowed := true, alwaysAllow := some true, message := none }
    ⟨"p1", 5, "Bash", "ls"⟩ (by decide) rfl rfl).1

theorem permInv_start (n : Nat) (cb : Bool) :
    PermInv [] (PermissionManager.start n cb) [] := by
  refine ⟨List.nodup_nil, List.nodup_nil, ?_, ?_, ?_, ?_⟩ <;>
    intro pid <;> simp [PermissionManager.start, pendingIds, settledIds]

theorem permInv_used_mono (used used2 : List String) (s : PermissionManager)
    (log : List Settlement) (hsub : ∀ x, x ∈ used → x ∈ used2)
    (h : PermInv used s log) : PermInv used2 s log := by
  obtain ⟨h1, h2, h3, h4, h5, h6⟩ := h
  exact ⟨h1, h2, h3, h4, fun pid hp => hsub _ (h5 pid hp),
    fun pid hp => hsub _ (h6 pid hp)⟩

theorem mem_pendingIds_filter (l : List PendingPermission) (pid x : String) :
    x ∈ (l.filter (fun q => q.id ≠ pid)).map PendingPermission.id
      ↔ x ∈ l.map PendingPermission.id ∧ x ≠ pid := by
  simp only [List.mem_map, List.mem_filter, decide_eq_true_eq]
  constructor
  · rintro ⟨q, ⟨hq, hne⟩, rfl⟩
    exact ⟨⟨q, hq, rfl⟩, hne⟩
  · rintro ⟨⟨q, hq, rfl⟩, hne⟩
    exact ⟨q, ⟨hq, hne⟩, rfl⟩

theorem permInv_request (used : List String) (s : PermissionManager)
    (log : List Settlement) (c : Int) (tn ti pid : String)
    (h : PermInv used s log) (hpid : pid ∉ used) :
    PermInv (used ++ [pid]) (requestPermission s c tn ti pid).1 log := by
  have hsub : ∀ x, x ∈ used → x ∈ used ++ [pid] :=
    fun x hx => List.mem_append_left _ hx
  rw [requestPermission]
  by_cases h1 : isToolAlwaysAllowed s c tn = true
  · rw [if_pos h1]
    exact permInv_used_mono used _ s log hsub h
  · rw [if_neg h1]
    by_cases h2 : (!s.hasCallback) = true
    · rw [if_pos h2]
      exact permInv_used_mono used _ s log hsub h
    · rw [if_neg h2]
      obtain ⟨h1n, h2n, h3n, h4n, h5n, h6n⟩ := h
      have hpids : pendingIds
          ({ s with
              activeTimers := s.activeTimers ++ [pid],
              pendingPermissions := s.pendingPermissions
                ++ [{ id := pid, chatId := c, toolName := tn, toolInput := ti }] }
            : PermissionManager)
          = pendingIds s ++ [pid] := by
        simp [pendingIds]
      refine ⟨?_, h2n, ?_, ?_, ?_, ?_⟩
      · rw [hpids]
        refine List.nodup_append.mpr ⟨h1n, by simp, ?_⟩
        intro a ha hb
        rw [List.mem_singleton] at hb
        subst hb
        exact hpid (h5n a ha)
      · intro q hq
        rw [hpids, List.mem_append]
        rintro (hin | hin)
        · exact h3n q hq hin
        · rw [List.mem_singleton] at hin
          subst hin
          exact hpid (h6n q hq)
      · intro x
        rw [hpids]
        simp only [List.mem_append, List.mem_singleton]
        constructor
        · rintro (hx | hx)
          · exact Or.inl ((h4n x).mp hx)
          · exact Or.inr hx
        · rintro (hx | hx)
          · exact Or.inl ((h4n x).mpr hx)
          · exact Or.inr hx
      · intro x hx
        rw [hpids, List.mem_append] at hx
        rcases hx with hx | hx
        · exact List.mem_append_left _ (h5n x hx)
        · exact List.mem_append_right _ hx
      · intro x hx
        exact List.mem_append_left _ (h6n x hx)

/-- The common removal step: an entry with id `pid` is deleted from the
pending table, its timer cleared, and its future settled once. -/
theorem permInv_remove (used : List String) (s : PermissionManager)
    (log : List Settlement) (pid : String) (resp : PermissionResponse)
    (h : PermInv used s log) (hmemp : pid ∈ pendingIds s)
    (s2 : PermissionManager)
    (hpend : s2.pendingPermissions
      = s.pendingPermissions.filter (fun q => q.id ≠ pid))
    (htim : ∀ x, x ∈ s2.activeTimers ↔ (x ∈ s.activeTimers ∧ x ≠ pid)) :
    PermInv used s2 (log ++ [(pid, resp)]) := by
  obtain ⟨h1n, h2n, h3n, h4n, h5n, h6n⟩ := h
  have hnotsettled : pid ∉ settledIds log := fun hq => h3n pid hq hmemp
  have hsids : settledIds (log ++ [(pid, resp)]) = settledIds log ++ [pid] := by
    simp [settledIds]
  have hpids : ∀ x, x ∈ pendingIds s2 ↔ (x ∈ pendingIds s ∧ x ≠ pid) := by
    intro x
    rw [pendingIds, hpend]
    exact mem_pendingIds_filter s.pendingPermissions pid x
  refine ⟨?_, ?_, ?_, ?_, ?_, ?_⟩
  · rw [pendingIds, hpend]
    exact List.Nodup.sublist
      (List.Sublist.map _ (List.filter_sublist s.pendingPermissions)) h1n
  · rw [hsids]
    refine List.nodup_append.mpr ⟨h2n, by simp, ?_⟩
    intro a ha hb
    rw [List.mem_singleton] at hb
    subst hb
    exact hnotsettled ha
  · intro q hq
    rw [hsids, List.mem_append] at hq
    intro hq2
    rw [hpids q] at hq2
    rcases hq with hq | hq
    · exact h3n q hq hq2.1
    · rw [List.mem_singleton] at hq
      subst hq
      exact hq2.2 rfl
  · intro x
    rw [htim x, hpids x, h4n x]
  · intro x hx
    rw [hpids x] at hx
    exact h5n x hx.1
  · intro x hx
    rw [hsids, List.mem_append] at hx
    rcases hx with hx | hx
    · exact h6n x hx
    · rw [List.mem_singleton] at hx
      subst hx
      exact h5n x hmemp

theorem pid_mem_of_find (s : PermissionManager) (pid : String)
    (p : PendingPermission) (hfind : getPendingPermission s pid = some p) :
    pid ∈ pendingIds s := by
  rw [getPendingPermission] at hfind
  have hp := List.find?_some hfind
  simp only [decide_eq_true_eq] at hp
  exact List.mem_map.mpr ⟨p, List.mem_of_find?_eq_some hfind, hp⟩

theorem permInv_resolve (used : List String) (s : PermissionManager)
    (log : List Settlement) (pid : String) (resp : PermissionResponse)
    (h : PermInv used s log) :
    PermInv used (resolvePermission s pid resp).1
      (log ++ (resolvePermission s pid resp).2.2) := by
  cases hfind : getPendingPermission s pid with
  | none =>
      rw [resolve_notfound s pid resp hfind]
      simpa using h
  | some p =>
      obtain ⟨hpend, htim, -, hlog, -, -⟩ := resolve_found s pid resp p hfind
      rw [hlog]
      refine permInv_remove used s log pid resp h
        (pid_mem_of_find s pid p hfind) _ hpend ?_
      intro x
      rw [htim]
      simp [List.mem_filter]

theorem permInv_fire (used : List String) (s : PermissionManager)
    (log : List Settlement) (pid : String) (h : PermInv used s log) :
    PermInv used (fireTimeout s pid).1 (log ++ (fireTimeout s pid).2) := by
  rw [fireTimeout]
  by_cases htm : pid ∈ s.activeTimers
  · rw [if_pos htm]
    have hmemp : pid ∈ pendingIds s := (h.2.2.2.1 pid).mp htm
    obtain ⟨p, hfind, -, -⟩ := getPending_some_of_mem s pid hmemp
    have hfind2 : getPendingPermission
        { s with activeTimers := s.activeTimers.filter (fun t => t ≠ pid) } pid
        = some p := hfind
    simp only [handleTimeout, hfind2]
    refine permInv_remove used s log pid _ h hmemp _ rfl ?_
    intro x
    simp [List.mem_filter]
  · rw [if_neg htm]
    simpa using h

theorem settledIds_cancel (s : PermissionManager) (c : Int) :
    settledIds (cancelPendingForChat s c).2 = cancelledIds s c := by
  simp [settledIds, cancelPendingForChat, cancelledIds, List.map_map, Function.comp]

theorem cancelledIds_subset (s : PermissionManager) (c : Int) (x : String)
    (hx : x ∈ cancelledIds s c) : x ∈ pendingIds s := by
  obtain ⟨q, hq, rfl⟩ := List.mem_map.mp hx
  exact List.mem_map.mpr ⟨q, (List.mem_filter.mp hq).1, rfl⟩

theorem cancelledIds_nodup (s : PermissionManager) (c : Int)
    (h : (pendingIds s).Nodup) : (cancelledIds s c).Nodup :=
  List.Nodup.sublist (List.Sublist.map _ (List.filter_sublist _)) h

theorem mem_keptIds_iff (s : PermissionManager) (c : Int)
    (hnodup : (pendingIds s).Nodup) (x : String) :
    x ∈ pendingIds (cancelPendingForChat s c).1
      ↔ (x ∈ pendingIds s ∧ x ∉ cancelledIds s c) := by
  constructor
  · intro hx
    obtain ⟨q, hq0, rfl⟩ := List.mem_map.mp hx
    have hq : q ∈ s.pendingPermissions.filter (fun p => p.chatId ≠ c) := hq0
    rw [List.mem_filter] at hq
    simp only [decide_eq_true_eq] at hq
    refine ⟨List.mem_map.mpr ⟨q, hq.1, rfl⟩, ?_⟩
    intro hq2
    obtain ⟨q2, hq2m, hq2id⟩ := List.mem_map.mp hq2
    rw [List.mem_filter] at hq2m
    simp only [decide_eq_true_eq] at hq2m
    have hqq : q2 = q := List.inj_on_of_nodup_map hnodup hq2m.1 hq.1 hq2id
    rw [hqq] at hq2m
    exact hq.2 hq2m.2
  · rintro ⟨hx, hnc⟩
    obtain ⟨q, hq, rfl⟩ := List.mem_map.mp hx
    have hqc : ¬(q.chatId = c) := fun hh =>
      hnc (List.mem_map.mpr ⟨q, List.mem_filter.mpr ⟨hq, by simp [hh]⟩, rfl⟩)
    exact List.mem_map.mpr ⟨q, List.mem_filter.mpr ⟨hq, by simp [hqc]⟩, rfl⟩

theorem permInv_cancel (used : List String) (s : PermissionManager)
    (log : List Settlement) (c : Int) (h : PermInv used s log) :
    PermInv used (cancelPendingForChat s c).1
      (log ++ (cancelPendingForChat s c).2) := by
  obtain ⟨h1n, h2n, h3n, h4n, h5n, h6n⟩ := h
  have hkept := mem_keptIds_iff s c h1n
  have hsid : settledIds (log ++ (cancelPendingForChat s c).2)
      = settledIds log ++ cancelledIds s c := by
    rw [← settledIds_cancel s c]
    simp [settledIds]
  refine ⟨?_, ?_, ?_, ?_, ?_, ?_⟩
  · exact List.Nodup.sublist
      (List.Sublist.map _ (List.filter_sublist _)) h1n
  · rw [hsid]
    refine List.nodup_append.mpr ⟨h2n, cancelledIds_nodup s c h1n, ?_⟩
    intro a ha hb
    exact h3n a ha (cancelledIds_subset s c a hb)
  · intro q hq
    rw [hsid, List.mem_append] at hq
    intro hq2
    rw [hkept q] at hq2
    rcases hq with hq | hq
    · exact h3n q hq hq2.1
    · exact hq2.2 hq
  · intro x
    rw [hkept x]
    show x ∈ s.activeTimers.filter (fun t => t ∉ cancelledIds s c) ↔ _
    rw [List.mem_filter]
    simp only [decide_eq_true_eq]
    rw [h4n x]
  · intro x hx
    rw [hkept x] at hx
    exact h5n x hx.1
  · intro x hx
    rw [hsid, List.mem_append] at hx
    rcases hx with hx | hx
    · exact h6n x hx
    · exact h5n x (cancelledIds_subset s c x hx)

theorem permInv_setAlways (used : List String) (s : PermissionManager)
    (log : List Settlement) (c : Int) (tn : String) (h : PermInv used s log) :
    PermInv used (setToolAlwaysAllowed s c tn) log := h

theorem permInv_clearAlways (used : List String) (s : PermissionManager)
    (log : List Settlement) (c : Int) (h : PermInv used s log) :
    PermInv used (clearAlwaysAllowed s c) log := h

theorem permInv_run (evts : List PermEvent) :
    ∀ (s : PermissionManager) (log : List Settlement) (used : List String),
    PermInv used s log → freshRun s used evts = true →
    ∃ used2, PermInv used2 (permRun (s, log) evts).1 (permRun (s, log) evts).2 := by
  induction evts with
  | nil => intro s log used h _; exact ⟨used, h⟩
  | cons e rest ih =>
      intro s log used h hfresh
      cases e with
      | request c tn ti pid =>
          simp only [freshRun, Bool.and_eq_true] at hfresh
          obtain ⟨hf1, hf2⟩ := hfresh
          have hpid : pid ∉ used := by simpa using hf1
          have hstep := permInv_request used s log c tn ti pid h hpid
          rw [← List.append_nil log] at hstep
          exact ih _ _ _ hstep hf2
      | resolve pid resp =>
          simp only [freshRun] at hfresh
          exact ih _ _ _ (permInv_resolve used s log pid resp h) hfresh
      | fire pid =>
          simp only [freshRun] at hfresh
          exact ih _ _ _ (permInv_fire used s log pid h) hfresh
      | cancelChat c =>
          simp only [freshRun] at hfresh
          exact ih _ _ _ (permInv_cancel used s log c h) hfresh
      | notifyFail pid =>
          simp only [freshRun] at hfresh
          exact ih _ _ _ (permInv_resolve used s log pid notifyFailResponse h) hfresh
      | setAlways c tn =>
          simp only [freshRun] at hfresh
          have hstep := permInv_setAlways used s log c tn h
          rw [← List.append_nil log] at hstep
          exact ih _ _ _ hstep hfresh
      | clearAlways c =>
          simp only [freshRun] at hfresh
          have hstep := permInv_clearAlways used s log c h
          rw [← List.append_nil log] at hstep
          exact ih _ _ _ hstep hfresh

/-- Claim C1: along every interleaving of broker events whose request ids are
fresh, every pending entry is resolved exactly once.  Settled ids of the run
log are distinct (no future is ever settled twice); on the reached state,
whichever destruction path finds the entry still present removes it and
settles it exactly once — explicit resolve returns true with exactly the one
settlement, a firing timeout settles exactly the timed-out denial, and
chat-cancel settles the entry's cancellation denial — while on an absent
entry resolvePermission returns false with no settlement and no state change,
a firing timeout does nothing, and chat-cancel never settles that id. -/
theorem pending_resolved_exactly_once (n : Nat) (cb : Bool)
    (evts : List PermEvent)
    (hfresh : freshRun (PermissionManager.start n cb) [] evts = true) :
    (settledIds (reachedLog n cb evts)).Nodup
    ∧ (∀ (pid : String) (resp : PermissionResponse),
        pid ∈ pendingIds (reachedPerm n cb evts) →
          (resolvePermission (reachedPerm n cb evts) pid resp).2.1 = true
          ∧ (resolvePermission (reachedPerm n cb evts) pid resp).2.2
              = [(pid, resp)]
          ∧ pid ∉ pendingIds
              (resolvePermission (reachedPerm n cb evts) pid resp).1)
    ∧ (∀ pid : String, pid ∈ pendingIds (reachedPerm n cb evts) →
          (fireTimeout (reachedPerm n cb evts) pid).2
              = [(pid, timeoutResponse (reachedPerm n cb evts).timeoutSeconds)]
          ∧ pid ∉ pendingIds (fireTimeout (reachedPerm n cb evts) pid).1)
    ∧ (∀ p : PendingPermission,
        p ∈ (reachedPerm n cb evts).pendingPermissions →
          (p.id, cancelResponse)
              ∈ (cancelPendingForChat (reachedPerm n cb evts) p.chatId).2
          ∧ p.id ∉ pendingIds
              (cancelPendingForChat (reachedPerm n cb evts) p.chatId).1)
    ∧ (∀ (pid : String) (resp : PermissionResponse),
        pid ∉ pendingIds (reachedPerm n cb evts) →
          resolvePermission (reachedPerm n cb evts) pid resp
              = (reachedPerm n cb evts, false, [])
          ∧ fireTimeout (reachedPerm n cb evts) pid
              = (reachedPerm n cb evts, [])
          ∧ (∀ c : Int, pid ∉ settledIds
              (cancelPendingForChat (reachedPerm n cb evts) c).2)) := by
  obtain ⟨used2, hinv⟩ := permInv_run evts (PermissionManager.start n cb) [] []
    (permInv_start n cb) hfresh
  obtain ⟨h1n, h2n, h3n, h4n, h5n, h6n⟩ := hinv
  refine ⟨h2n, ?_, ?_, ?_, ?_⟩
  · intro pid resp hmem
    obtain ⟨p, hfind, -, -⟩ := getPending_some_of_mem _ pid hmem
    obtain ⟨hpend, -, hret, hlog2, -, -⟩ := resolve_found _ pid resp p hfind
    refine ⟨hret, hlog2, ?_⟩
    rw [pendingIds, hpend]
    exact pid_not_mem_filtered _ pid
  · intro pid hmem
    have htm : pid ∈ (reachedPerm n cb evts).activeTimers := (h4n pid).mpr hmem
    obtain ⟨p, hfind, -, -⟩ := getPending_some_of_mem _ pid hmem
    have hfind2 : getPendingPermission
        { reachedPerm n cb evts with
            activeTimers :=
              (reachedPerm n cb evts).activeTimers.filter (fun t => t ≠ pid) }
        pid = some p := hfind
    constructor
    · rw [fireTimeout, if_pos htm]
      simp only [handleTimeout, hfind2]
    · rw [fireTimeout, if_pos htm]
      simp only [handleTimeout, hfind2]
      exact pid_not_mem_filtered _ pid
  · intro p hp
    constructor
    · exact List.mem_map.mpr ⟨p, List.mem_filter.mpr ⟨hp, by simp⟩, rfl⟩
    · intro hmem2
      obtain ⟨q, hq0, hqid⟩ := List.mem_map.mp hmem2
      have hq : q ∈ (reachedPerm n cb evts).pendingPermissions.filter
          (fun x => x.chatId ≠ p.chatId) := hq0
      rw [List.mem_filter] at hq
      simp only [decide_eq_true_eq] at hq
      have hqp : q = p := List.inj_on_of_nodup_map h1n hq.1 hp hqid
      rw [hqp] at hq
      exact hq.2 rfl
  · intro pid resp hnmem
    have hfind := getPending_none_of_not_mem _ pid hnmem
    have htm : pid ∉ (reachedPerm n cb evts).activeTimers :=
      fun hx => hnmem ((h4n pid).mp hx)
    refine ⟨resolve_notfound _ pid resp hfind, ?_, ?_⟩
    · rw [fireTimeout, if_neg htm]
    · intro c hmem2
      rw [settledIds_cancel] at hmem2
      exact hnmem (cancelledIds_subset _ c pid hmem2)

/-- Witness for C1 on a run request, user resolve, late timeout firing:
the late timeout is a no-op and the single settlement log stays duplicate
free. -/
theorem pending_resolved_exactly_once_witness :
    (settledIds (reachedLog 60 true
        [PermEvent.request 5 "Bash" "ls" "p1",
          PermEvent.resolve "p1"
            { allowed := true, alwaysAllow := none, message := none },
          PermEvent.fire "p1"])).Nodup :=
  (pending_resolved_exactly_once 60 true
    [PermEvent.request 5 "Bash" "ls" "p1",
      PermEvent.resolve "p1"
        { allowed := true, alwaysAllow := none, message := none },
      PermEvent.fire "p1"] (by decide)).1

theorem lookupTools_filter_self (l : List (Int × List String)) (c : Int) :
    lookupTools (l.filter (fun e => e.1 ≠ c)) c = none := by
  induction l with
  | nil => rfl
  | cons e rest ih =>
      obtain ⟨c0, ts0⟩ := e
      simp only [ne_eq, decide_not] at ih ⊢
      by_cases hc : c0 = c
      · simp [List.filter_cons, hc, ih]
      · simp [List.filter_cons, hc, lookupTools, ih]

theorem mem_filter_ne_chat (l : List PendingPermission) (c : Int)
    (p : PendingPermission) :
    p ∈ l.filter (fun q => q.chatId ≠ c) ↔ (p ∈ l ∧ p.chatId ≠ c) := by
  rw [List.mem_filter]
  simp

theorem mem_filter_not_mem (l ids : List String) (x : String) :
    x ∈ l.filter (fun t => t ∉ ids) ↔ (x ∈ l ∧ x ∉ ids) := by
  rw [List.mem_filter]
  simp

/-- Claim C7: cancelPendingForChat settles every still-pending entry of the
chat with the cancellation denial (in table order), clears each such entry's
timeout, leaves zero entries for the chat while entries of other chats and
their timers are untouched; and session clear and session delete both perform
exactly this cancellation together with clearing the chat's always-allow
set. -/
theorem cancel_pending_for_chat_complete (m : SessionManager)
    (s : PermissionManager) (c : Int) :
    ((cancelPendingForChat s c).2
        = (s.pendingPermissions.filter (fun p => p.chatId = c)).map
            (fun p => (p.id, cancelResponse))
      ∧ cancelResponse.allowed = false
      ∧ (∀ p : PendingPermission,
            p ∈ (cancelPendingForChat s c).1.pendingPermissions
              ↔ (p ∈ s.pendingPermissions ∧ p.chatId ≠ c))
      ∧ (∀ pid, pid ∈ cancelledIds s c →
            pid ∉ (cancelPendingForChat s c).1.activeTimers)
      ∧ (∀ pid, pid ∈ s.activeTimers → pid ∉ cancelledIds s c →
            pid ∈ (cancelPendingForChat s c).1.activeTimers))
    ∧ ((clearSession m c).1.permissionManager
          = (cancelPendingForChat (clearAlwaysAllowed m.permissionManager c) c).1
      ∧ (clearSession m c).2
          = (cancelPendingForChat (clearAlwaysAllowed m.permissionManager c) c).2
      ∧ (∀ p : PendingPermission,
            p ∈ (clearSession m c).1.permissionManager.pendingPermissions →
              p.chatId ≠ c)
      ∧ (∀ t : String,
            isToolAlwaysAllowed (clearSession m c).1.permissionManager c t
              = false))
    ∧ ((deleteSession m c).1.permissionManager
          = (cancelPendingForChat (clearAlwaysAllowed m.permissionManager c) c).1
      ∧ (deleteSession m c).2
          = (cancelPendingForChat (clearAlwaysAllowed m.permissionManager c) c).2
      ∧ (∀ p : PendingPermission,
            p ∈ (deleteSession m c).1.permissionManager.pendingPermissions →
              p.chatId ≠ c)
      ∧ (∀ t : String,
            isToolAlwaysAllowed (deleteSession m c).1.permissionManager c t
              = false)) := by
  have hclr : ∀ (t : String) (s2 : PermissionManager),
      isToolAlwaysAllowed
        (cancelPendingForChat (clearAlwaysAllowed s2 c) c).1 c t = false := by
    intro t s2
    rw [isToolAlwaysAllowed]
    rw [show (cancelPendingForChat (clearAlwaysAllowed s2 c) c).1.alwaysAllowedTools
        = s2.alwaysAllowedTools.filter (fun e => e.1 ≠ c) from rfl]
    rw [lookupTools_filter_self]
  have hker : ∀ (s2 : PermissionManager) (p : PendingPermission),
      p ∈ (cancelPendingForChat s2 c).1.pendingPermissions → p.chatId ≠ c := by
    intro s2 p hp
    have hp2 : p ∈ s2.pendingPermissions.filter (fun q => q.chatId ≠ c) := hp
    exact ((mem_filter_ne_chat _ c p).mp hp2).2
  refine ⟨⟨rfl, rfl, ?_, ?_, ?_⟩, ⟨rfl, rfl, ?_, ?_⟩, ⟨rfl, rfl, ?_, ?_⟩⟩
  · intro p
    exact mem_filter_ne_chat s.pendingPermissions c p
  · intro pid hpid hmem
    have hmem2 : pid ∈ s.activeTimers.filter
        (fun t => t ∉ cancelledIds s c) := hmem
    exact ((mem_filter_not_mem _ _ pid).mp hmem2).2 hpid
  · intro pid htm hnc
    exact (mem_filter_not_mem _ _ pid).mpr ⟨htm, hnc⟩
  · exact hker m.permissionManager
  · intro t
    exact hclr t m.permissionManager
  · exact hker m.permissionManager
  · intro t
    exact hclr t m.permissionManager

theorem lookupStream_set_self (l : List (Int × MessageStream)) (c : Int)
    (st : MessageStream) : lookupStream (setStream l c st) c = some st := by
  induction l with
  | nil => simp [setStream, lookupStream]
  | cons e rest ih =>
      obtain ⟨c0, st0⟩ := e
      by_cases hc : c0 = c
      · simp [setStream, lookupStream, hc]
      · simp [setStream, lookupStream, hc, ih]

theorem lookupStream_set_other (l : List (Int × MessageStream)) (c c2 : Int)
    (st : MessageStream) (h : c2 ≠ c) :
    lookupStream (setStream l c st) c2 = lookupStream l c2 := by
  induction l with
  | nil =>
      have hcc : ¬(c = c2) := fun hh => h hh.symm
      simp [setStream, lookupStream, hcc]
  | cons e rest ih =>
      obtain ⟨c0, st0⟩ := e
      by_cases hc : c0 = c
      · subst hc
        have hcc : ¬(c0 = c2) := fun hh => h hh.symm
        simp [setStream, lookupStream, hcc]
      · simp [setStream, lookupStream, hc, ih]

theorem lookupStream_remove_self (l : List (Int × MessageStream)) (c : Int) :
    lookupStream (removeStream l c) c = none := by
  induction l with
  | nil => rfl
  | cons e rest ih =>
      obtain ⟨c0, st0⟩ := e
      simp only [removeStream, ne_eq, decide_not] at ih ⊢
      by_cases hc : c0 = c
      · simp [List.filter_cons, hc, ih]
      · simp [List.filter_cons, hc, lookupStream, ih]

theorem streamKeys_set (l : List (Int × MessageStream)) (c : Int)
    (st : MessageStream) :
    streamKeys (setStream l c st)
      = if c ∈ streamKeys l then streamKeys l else streamKeys l ++ [c] := by
  induction l with
  | nil => simp [setStream, streamKeys]
  | cons e rest ih =>
      obtain ⟨c0, st0⟩ := e
      by_cases hc : c0 = c
      · subst hc
        simp [setStream, streamKeys]
      · have hlhs : streamKeys (setStream ((c0, st0) :: rest) c st)
            = c0 :: streamKeys (setStream rest c st) := by
          simp [setStream, hc, streamKeys]
        rw [hlhs, ih]
        have hne : ¬(c = c0) := fun hh => hc hh.symm
        by_cases hm : c ∈ streamKeys rest
        · have hcond : c ∈ streamKeys ((c0, st0) :: rest) := by
            simp only [streamKeys, List.map_cons, List.mem_cons]
            exact Or.inr hm
          rw [if_pos hm, if_pos hcond]
          simp [streamKeys]
        · have hcond : c ∉ streamKeys ((c0, st0) :: rest) := by
            simp only [streamKeys, List.map_cons, List.mem_cons]
            rintro (hmm | hmm)
            · exact hne hmm
            · exact hm hmm
          rw [if_neg hm, if_neg hcond]
          simp [streamKeys]

theorem streamKeys_set_nodup (l : List (Int × MessageStream)) (c : Int)
    (st : MessageStream) (h : (streamKeys l).Nodup) :
    (streamKeys (setStream l c st)).Nodup := by
  rw [streamKeys_set]
  by_cases hm : c ∈ streamKeys l
  · rw [if_pos hm]
    exact h
  · rw [if_neg hm]
    refine List.nodup_append.mpr ⟨h, by simp, ?_⟩
    intro a ha hb
    rw [List.mem_singleton] at hb
    subst hb
    exact hm ha

theorem streamKeys_remove_nodup (l : List (Int × MessageStream)) (c : Int)
    (h : (streamKeys l).Nodup) : (streamKeys (removeStream l c)).Nodup :=
  List.Nodup.sublist (List.Sublist.map _ (List.filter_sublist _)) h

theorem finishProcessing_eq (b : TelegramBot) (c : Int) (o : TurnOutcome) :
    finishProcessing b c o
      = ({ b with activeStreams := removeStream b.activeStreams c },
          Option.map MessageStream.close (lookupStream b.activeStreams c)) := by
  cases o <;> cases hlk : lookupStream b.activeStreams c <;>
    simp [finishProcessing, hlk]

theorem injectOrStart_unfold (b : TelegramBot) (c : Int) (text : String) :
    injectOrStartMessage b c true text
      = match lookupStream b.activeStreams c with
        | some st =>
            if !st.isClosed then
              { b with
                  activeStreams :=
                    setStream b.activeStreams c (st.pushText text) }
            else startNewProcessing b c text
        | none => startNewProcessing b c text := rfl

theorem injectOrStart_active_open (b : TelegramBot) (c : Int) (text : String)
    (st : MessageStream) (hlk : lookupStream b.activeStreams c = some st)
    (hop : st.isClosed = false) :
    injectOrStartMessage b c true text
      = { b with
          activeStreams := setStream b.activeStreams c (st.pushText text) } := by
  rw [injectOrStart_unfold, hlk]
  dsimp only
  rw [if_pos (by rw [hop]; rfl)]

theorem injectOrStart_idle (b : TelegramBot) (c : Int) (text : String)
    (hlk : lookupStream b.activeStreams c = none) :
    injectOrStartMessage b c true text = startNewProcessing b c text := by
  rw [injectOrStart_unfold, hlk]

theorem startNew_facts (b : TelegramBot) (c : Int) (text : String) :
    (startNewProcessing b c text).invocationsStarted = b.invocationsStarted + 1
    ∧ lookupStream (startNewProcessing b c text).activeStreams c
        = some (MessageStream.empty.pushText text)
    ∧ (MessageStream.empty.pushText text).pushedLog
        = [MessageStream.empty.createMessage text] :=
  ⟨rfl, lookupStream_set_self b.activeStreams c _, rfl⟩

/-- Claim C8: the chat key is unique in the active table and stays unique
under message arrival and turn finish (at most one active stream entry per
chat); a message for a chat whose stream is active and open is injected into
that existing channel — its pushed item count grows by one, the invocation
count does not, and other chats' entries are untouched; a message for an
idle chat creates a fresh channel holding the content as its first item,
makes the chat active, and launches exactly one invocation. -/
theorem at_most_one_invocation_per_chat (b : TelegramBot) (c : Int)
    (text : String) :
    ((streamKeys b.activeStreams).Nodup →
        (streamKeys (injectOrStartMessage b c true text).activeStreams).Nodup
        ∧ (streamKeys
            (finishProcessing b c TurnOutcome.success).1.activeStreams).Nodup)
    ∧ (∀ st : MessageStream, lookupStream b.activeStreams c = some st →
        st.isClosed = false →
        (injectOrStartMessage b c true text).invocationsStarted
            = b.invocationsStarted
        ∧ lookupStream (injectOrStartMessage b c true text).activeStreams c
            = some (st.pushText text)
        ∧ (st.pushText text).pushedLog.length = st.pushedLog.length + 1
        ∧ (∀ c2, c2 ≠ c →
            lookupStream (injectOrStartMessage b c true text).activeStreams c2
              = lookupStream b.activeStreams c2))
    ∧ (lookupStream b.activeStreams c = none →
        (injectOrStartMessage b c true text).invocationsStarted
            = b.invocationsStarted + 1
        ∧ lookupStream (injectOrStartMessage b c true text).activeStreams c
            = some (MessageStream.empty.pushText text)
        ∧ (MessageStream.empty.pushText text).pushedLog
            = [MessageStream.empty.createMessage text]) := by
  refine ⟨?_, ?_, ?_⟩
  · intro hnd
    constructor
    · cases hlk : lookupStream b.activeStreams c with
      | some st =>
          cases hcl : st.isClosed with
          | false =>
              rw [injectOrStart_active_open b c text st hlk hcl]
              exact streamKeys_set_nodup _ c _ hnd
          | true =>
              have hstart : injectOrStartMessage b c true text
                  = startNewProcessing b c text := by
                rw [injectOrStart_unfold, hlk]
                dsimp only
                rw [if_neg (by rw [hcl]; simp)]
              rw [hstart]
              exact streamKeys_set_nodup _ c _ hnd
      | none =>
          rw [injectOrStart_idle b c text hlk]
          exact streamKeys_set_nodup _ c _ hnd
    · rw [show (finishProcessing b c TurnOutcome.success).1
          = { b with activeStreams := removeStream b.activeStreams c } from
          congrArg Prod.fst (finishProcessing_eq b c TurnOutcome.success)]
      exact streamKeys_remove_nodup _ c hnd
  · intro st hlk hop
    rw [injectOrStart_active_open b c text st hlk hop]
    refine ⟨rfl, lookupStream_set_self _ c _, ?_, ?_⟩
    · rw [show (st.pushText text).pushedLog
          = st.pushedLog ++ [st.createMessage text] from
          push_pushedLog_open st _ hop]
      simp
    · intro c2 hc2
      exact lookupStream_set_other _ c c2 _ hc2
  · intro hlk
    rw [injectOrStart_idle b c text hlk]
    exact startNew_facts b c text

/-- Witness for C8: a second message for a chat with an open active stream is
injected and starts no extra invocation. -/
theorem at_most_one_invocation_per_chat_witness :
    (injectOrStartMessage
        { activeStreams := [(5, MessageStream.empty.pushText "hi")],
          invocationsStarted := 1 } 5 true "more").invocationsStarted = 1 :=
  ((at_most_one_invocation_per_chat
      { activeStreams := [(5, MessageStream.empty.pushText "hi")],
        invocationsStarted := 1 } 5 "more").2.1
    (MessageStream.empty.pushText "hi") (by decide) (by decide)).1

/-- Claim C9: whatever the outcome — success, engine error, or unexpected
exception — the finally cleanup closes the channel and removes the active
entry, so the chat is idle again (not stuck active) and the next message
starts a fresh channel and a fresh invocation rather than resuming the
failed one. -/
theorem cleanup_always_runs (b : TelegramBot) (c : Int) (st : MessageStream)
    (o o2 : TurnOutcome) (text : String)
    (hlk : lookupStream b.activeStreams c = some st) :
    (finishProcessing b c o).2 = some st.close
    ∧ st.close.closed = true
    ∧ lookupStream (finishProcessing b c o).1.activeStreams c = none
    ∧ finishProcessing b c o = finishProcessing b c o2
    ∧ (injectOrStartMessage (finishProcessing b c o).1 c true
        text).invocationsStarted
        = (finishProcessing b c o).1.invocationsStarted + 1
    ∧ lookupStream (injectOrStartMessage (finishProcessing b c o).1 c true
        text).activeStreams c = some (MessageStream.empty.pushText text) := by
  have hfe := finishProcessing_eq b c o
  have hidle : lookupStream (finishProcessing b c o).1.activeStreams c
      = none := by
    rw [hfe]
    exact lookupStream_remove_self _ c
  refine ⟨?_, close_closed st, hidle, ?_, ?_, ?_⟩
  · rw [hfe, hlk]
    rfl
  · rw [hfe, finishProcessing_eq b c o2]
  · rw [injectOrStart_idle _ c text hidle]
    rfl
  · rw [injectOrStart_idle _ c text hidle]
    exact (startNew_facts _ c text).2.1

/-- Witness for C9: after an engine error the chat is idle again. -/
theorem cleanup_always_runs_witness :
    lookupStream (finishProcessing
        { activeStreams := [(5, MessageStream.empty.pushText "hi")],
          invocationsStarted := 1 } 5
        (TurnOutcome.engineError "boom")).1.activeStreams 5 = none :=
  (cleanup_always_runs
    { activeStreams := [(5, MessageStream.empty.pushText "hi")],
      invocationsStarted := 1 } 5 (MessageStream.empty.pushText "hi")
    (TurnOutcome.engineError "boom") TurnOutcome.success "next"
    (by decide)).2.2.1

end NodeTgCc

